import Mathlib

/-!
Shallow embedding of the `blist` package: an in-memory, version-ordered
container (`List` in Go, here `State`) backed by a balanced tree of
`Item`s keyed by a signed integer version, plus the `Item` navigation
methods.  Item identity matters to the specification (replacement,
back-references, detachment), so items live on an explicit heap and the
tree stores heap ids; the Go btree, whose `Less` compares versions only,
is modelled as a strictly version-sorted list of ids.  Locks only
serialize operations and have no sequential content, so they are not
modelled.
-/

namespace Blist

/-- The `Find` seek-mode enumeration from the source
(`Exact`, `Prev`, `Next`, `Upto`, `Nearest`). -/
inductive Find where
  | Exact
  | Prev
  | Next
  | Upto
  | Nearest
deriving DecidableEq, Repr

/-- An `Item`: version, value (byte slice, as a list of bytes), and
whether its `list` back-pointer is set (non-nil).  Only one container is
ever in scope, so the back-pointer is a flag. -/
structure ItemObj where
  ver : Int
  val : List Nat
  attached : Bool
deriving DecidableEq, Repr

/-- A container together with the heap of every item ever allocated:
`heap` maps item ids (positions) to item objects; `tree` is the btree's
content, a list of ids sorted strictly by version. -/
structure State where
  heap : List ItemObj
  tree : List Nat
deriving DecidableEq, Repr

/-- Dereference an item id in a heap (out-of-range ids give an inert
default, which never arises for ids the API hands out). -/
def getItemH (heap : List ItemObj) (id : Nat) : ItemObj :=
  heap.getD id ⟨0, [], false⟩

/-- Version of the item at `id` in `heap`. -/
def verOfH (heap : List ItemObj) (id : Nat) : Int :=
  (getItemH heap id).ver

/-- Dereference an item id in a state. -/
def getItem (s : State) (id : Nat) : ItemObj :=
  getItemH s.heap id

/-- Version of the item at `id` in state `s`. -/
def verOf (s : State) (id : Nat) : Int :=
  verOfH s.heap id

/-- Clear the `list` back-pointer of item `i` (the `i.list = nil`
assignments in the source). -/
def setDetached (heap : List ItemObj) (i : Nat) : List ItemObj :=
  heap.set i { getItemH heap i with attached := false }

/-- `New()`: an empty container (and empty heap). -/
def New : State :=
  ⟨[], []⟩

/-- `btree.ReplaceOrInsert` on the sorted id list: insert `id` (whose
version in `heap` is `v`) at its sorted position, replacing an existing
id whose version is neither less nor greater (i.e. equal). -/
def replaceOrInsert (heap : List ItemObj) (v : Int) (id : Nat) :
    List Nat → List Nat
  | [] => [id]
  | t :: ts =>
    if v < verOfH heap t then id :: t :: ts
    else if verOfH heap t < v then t :: replaceOrInsert heap v id ts
    else id :: ts

/-- `btree.Delete` keyed by version: remove the first (in a sorted
unique tree, the only) id whose version equals `v`. -/
def deleteKey (heap : List ItemObj) (v : Int) : List Nat → List Nat
  | [] => []
  | t :: ts => if verOfH heap t = v then ts else t :: deleteKey heap v ts

/-- `Put(ver, val)`: allocate a fresh `Item` with `list` set and
`ReplaceOrInsert` it into the tree; return the new state and the id of
the returned item. -/
def Put (s : State) (ver : Int) (val : List Nat) : State × Nat :=
  let id := s.heap.length
  let heap2 := s.heap ++ [⟨ver, val, true⟩]
  (⟨heap2, replaceOrInsert heap2 ver id s.tree⟩, id)

/-- The ids visited by `tree.DescendLessOrEqual(&Item{ver})`: those with
version ≤ `ver`, in descending order. -/
def itemsLE (s : State) (ver : Int) : List Nat :=
  (s.tree.filter (fun id => verOf s id ≤ ver)).reverse

/-- The ids visited by `tree.AscendGreaterOrEqual(&Item{ver})`: those
with version ≥ `ver`, in ascending order. -/
def itemsGE (s : State) (ver : Int) : List Nat :=
  s.tree.filter (fun id => ver ≤ verOf s id)

/-- The `find` seek algorithm: `Prev` and `Next` scan from the inclusive
boundary and stop at the first item whose version differs from the
pivot; `Upto` stops at the first item ≤ the pivot; `Exact` is a keyed
`tree.Get`; `Nearest` is `Upto`, else `Next`. -/
def find (s : State) (ver : Int) (what : Find) : Option Nat :=
  match what with
  | .Prev => (itemsLE s ver).find? (fun id => verOf s id ≠ ver)
  | .Next => (itemsGE s ver).find? (fun id => verOf s id ≠ ver)
  | .Upto => (itemsLE s ver).head?
  | .Exact => s.tree.find? (fun id => verOf s id = ver)
  | .Nearest =>
    match (itemsLE s ver).head? with
    | some i => some i
    | none => (itemsGE s ver).find? (fun id => verOf s id ≠ ver)

/-- `Get(ver, meth)`: read-only seek. -/
def Get (s : State) (ver : Int) (meth : Find) : Option Nat :=
  find s ver meth

/-- `Del(ver, meth)`: seek, and if an item was found delete it from the
tree and clear its `list` pointer; return it (or nil). -/
def Del (s : State) (ver : Int) (meth : Find) : State × Option Nat :=
  match find s ver meth with
  | none => (s, none)
  | some i =>
    (⟨setDetached s.heap i, deleteKey s.heap (verOf s i) s.tree⟩, some i)

/-- `Exp(ver, meth)`: seek, and if an item was found delete every tree
entry with version ≤ its version (the `DescendLessOrEqual` loop); no
`list` pointer is cleared.  Return the found item (or nil). -/
def Exp (s : State) (ver : Int) (meth : Find) : State × Option Nat :=
  match find s ver meth with
  | none => (s, none)
  | some i =>
    (⟨s.heap, s.tree.filter (fun id => !(verOf s id ≤ verOf s i))⟩, some i)

/-- `Len()`: number of items in the tree. -/
def Len (s : State) : Nat :=
  s.tree.length

/-- `Min()`: the first (smallest-version) item, or nil. -/
def Min (s : State) : Option Nat :=
  s.tree.head?

/-- `Max()`: the last (largest-version) item, or nil. -/
def Max (s : State) : Option Nat :=
  s.tree.getLast?

/-- `Clr()`: replace the tree with a fresh empty one (heap objects are
untouched). -/
def Clr (s : State) : State :=
  ⟨s.heap, []⟩

/-- The visit sequence of `tree.Ascend` with iterator
`fun i => !fn(i)`: each item is visited in ascending order, and the
traversal stops right after the first item on which `fn` returns
`true` (the iterator then returns `false`). -/
def walkGo (s : State) (fn : ItemObj → Bool) : List Nat → List Nat
  | [] => []
  | t :: ts => if fn (getItem s t) then [t] else t :: walkGo s fn ts

/-- `Walk(fn)`: ascending traversal; modelled as the list of item ids
the callback is invoked on, in order. -/
def Walk (s : State) (fn : ItemObj → Bool) : List Nat :=
  walkGo s fn s.tree

/-- `Item.Ver()`. -/
def Item.Ver (s : State) (i : Nat) : Int :=
  (getItem s i).ver

/-- `Item.Val()`. -/
def Item.Val (s : State) (i : Nat) : List Nat :=
  (getItem s i).val

/-- `Item.Set(val)`: update the value in place, return the same item. -/
def Item.Set (s : State) (i : Nat) (val : List Nat) : State × Nat :=
  (⟨s.heap.set i { getItemH s.heap i with val := val }, s.tree⟩, i)

/-- `Item.Del()`: if the `list` pointer is set, delete the tree entry
keyed by this item's version and clear the pointer; always return the
item itself. -/
def Item.Del (s : State) (i : Nat) : State × Nat :=
  if (getItem s i).attached then
    (⟨setDetached s.heap i, deleteKey s.heap (verOf s i) s.tree⟩, i)
  else
    (s, i)

/-- `Item.Prev()`: `find(i.ver, Prev)` on the owning list when attached,
else nil. -/
def Item.Prev (s : State) (i : Nat) : Option Nat :=
  if (getItem s i).attached then find s (verOf s i) .Prev else none

/-- `Item.Next()`: `find(i.ver, Next)` on the owning list when attached,
else nil. -/
def Item.Next (s : State) (i : Nat) : Option Nat :=
  if (getItem s i).attached then find s (verOf s i) .Next else none

/-- Tree well-formedness: every stored id is allocated, and versions are
strictly increasing along the tree.  Every state reachable through the
API satisfies it (`Inv_PutSeq` below). -/
def Inv (s : State) : Prop :=
  (∀ id ∈ s.tree, id < s.heap.length) ∧
  s.tree.Pairwise (fun a b => verOf s a < verOf s b)

instance (s : State) : Decidable (Inv s) := by
  unfold Inv; infer_instance

/-- Apply a sequence of `Put` calls. -/
def PutSeq (s : State) : List (Int × List Nat) → State
  | [] => s
  | (v, b) :: rest => PutSeq (Put s v b).1 rest

/-- A concrete container with entries at versions 10, 20 and 30 (the
worked example of the specification); ids 0, 1, 2. -/
def ex3 : State :=
  PutSeq New [(10, [1]), (20, [2]), (30, [3])]

/-! ### Generic list lemmas -/

theorem find?_eq_head?_filter {α : Type} (p : α → Bool) (l : List α) :
    l.find? p = (l.filter p).head? := by
  induction l with
  | nil => rfl
  | cons a l ih =>
    cases hpa : p a with
    | true =>
      rw [List.find?_cons_of_pos _ hpa, List.filter_cons_of_pos hpa,
        List.head?_cons]
    | false =>
      have hna : ¬p a := by simp [hpa]
      rw [List.find?_cons_of_neg _ hna, List.filter_cons_of_neg hna, ih]

/-- The head of a strictly descending list is its maximum. -/
theorem head?_desc_max {α : Type} (f : α → Int) (m : List α)
    (h : m.Pairwise (fun a b => f b < f a)) (i : α) :
    m.head? = some i ↔ i ∈ m ∧ ∀ j ∈ m, f j ≤ f i := by
  cases m with
  | nil => simp
  | cons a l =>
    rw [List.pairwise_cons] at h
    constructor
    · intro hi
      rw [List.head?_cons, Option.some.injEq] at hi
      subst hi
      refine ⟨List.mem_cons_self _ _, ?_⟩
      intro j hj
      rcases List.mem_cons.mp hj with rfl | hj
      · exact le_refl _
      · exact le_of_lt (h.1 j hj)
    · rintro ⟨hi, hall⟩
      rcases List.mem_cons.mp hi with rfl | hi
      · rfl
      · have h1 : f i < f a := h.1 i hi
        have h2 : f a ≤ f i := hall a (List.mem_cons_self _ _)
        omega

/-- The head of a strictly ascending list is its minimum. -/
theorem head?_asc_min {α : Type} (f : α → Int) (m : List α)
    (h : m.Pairwise (fun a b => f a < f b)) (i : α) :
    m.head? = some i ↔ i ∈ m ∧ ∀ j ∈ m, f i ≤ f j := by
  cases m with
  | nil => simp
  | cons a l =>
    rw [List.pairwise_cons] at h
    constructor
    · intro hi
      rw [List.head?_cons, Option.some.injEq] at hi
      subst hi
      refine ⟨List.mem_cons_self _ _, ?_⟩
      intro j hj
      rcases List.mem_cons.mp hj with rfl | hj
      · exact le_refl _
      · exact le_of_lt (h.1 j hj)
    · rintro ⟨hi, hall⟩
      rcases List.mem_cons.mp hi with rfl | hi
      · rfl
      · have h1 : f a < f i := h.1 i hi
        have h2 : f i ≤ f a := hall a (List.mem_cons_self _ _)
        omega

/-- In a strictly sorted list, equal keys force equal elements. -/
theorem pairwise_key_inj {α : Type} (f : α → Int) :
    ∀ l : List α, l.Pairwise (fun a b => f a < f b) →
      ∀ i ∈ l, ∀ j ∈ l, f i = f j → i = j := by
  intro l
  induction l with
  | nil => simp
  | cons a l ih =>
    intro hl i hi j hj hf
    rw [List.pairwise_cons] at hl
    rcases List.mem_cons.mp hi with hia | hi2
    · rcases List.mem_cons.mp hj with hja | hj2
      · rw [hia, hja]
      · subst hia
        exact absurd hf (by have := hl.1 j hj2; omega)
    · rcases List.mem_cons.mp hj with hja | hj2
      · subst hja
        exact absurd hf (by have := hl.1 i hi2; omega)
      · exact ih hl.2 i hi2 j hj2 hf

/-! ### Closed forms of the four primitive seek modes -/

theorem find_Upto_eq (s : State) (v : Int) :
    find s v .Upto
      = ((s.tree.filter (fun id => verOf s id ≤ v)).reverse).head? := rfl

theorem find_Exact_eq (s : State) (v : Int) :
    find s v .Exact
      = (s.tree.filter (fun id => verOf s id = v)).head? := by
  show s.tree.find? _ = _
  rw [find?_eq_head?_filter]

theorem find_Prev_eq (s : State) (v : Int) :
    find s v .Prev
      = ((s.tree.filter (fun id => verOf s id < v)).reverse).head? := by
  show (itemsLE s v).find? (fun id => verOf s id ≠ v) = _
  rw [find?_eq_head?_filter]
  unfold itemsLE
  rw [List.filter_reverse, List.filter_filter]
  congr 2
  apply List.filter_congr
  intro x _
  show (decide (verOf s x ≠ v) && decide (verOf s x ≤ v))
      = decide (verOf s x < v)
  rw [← Bool.decide_and]
  exact decide_eq_decide.mpr (by omega)

theorem find_Next_eq (s : State) (v : Int) :
    find s v .Next
      = (s.tree.filter (fun id => v < verOf s id)).head? := by
  show (itemsGE s v).find? (fun id => verOf s id ≠ v) = _
  rw [find?_eq_head?_filter]
  unfold itemsGE
  rw [List.filter_filter]
  congr 1
  apply List.filter_congr
  intro x _
  show (decide (verOf s x ≠ v) && decide (v ≤ verOf s x))
      = decide (v < verOf s x)
  rw [← Bool.decide_and]
  exact decide_eq_decide.mpr (by omega)

/-! ### Sortedness transport -/

/-- Abbreviation for the strict version-sortedness of a tree. -/
def TreeSorted (s : State) : Prop :=
  s.tree.Pairwise (fun a b => verOf s a < verOf s b)

theorem treeSorted_of_inv {s : State} (h : Inv s) : TreeSorted s := h.2

theorem filter_sorted {s : State} (hs : TreeSorted s) (p : Nat → Bool) :
    (s.tree.filter p).Pairwise (fun a b => verOf s a < verOf s b) :=
  hs.sublist (List.filter_sublist _)

theorem filter_reverse_sorted {s : State} (hs : TreeSorted s)
    (p : Nat → Bool) :
    ((s.tree.filter p).reverse).Pairwise
      (fun a b => verOf s b < verOf s a) :=
  List.pairwise_reverse.mpr (filter_sorted hs p)

/-! ### Characterizations of the primitive seek modes on sorted trees -/

theorem find_Upto_iff {s : State} (hs : TreeSorted s) (v : Int) (i : Nat) :
    find s v .Upto = some i ↔
      i ∈ s.tree ∧ verOf s i ≤ v ∧
        ∀ j ∈ s.tree, verOf s j ≤ v → verOf s j ≤ verOf s i := by
  rw [find_Upto_eq,
    head?_desc_max (verOf s) _ (filter_reverse_sorted hs _) i]
  constructor
  · rintro ⟨hi, hall⟩
    rw [List.mem_reverse, List.mem_filter, decide_eq_true_eq] at hi
    refine ⟨hi.1, hi.2, fun j hj hjv => ?_⟩
    exact hall j (by rw [List.mem_reverse, List.mem_filter]; simp [hj, hjv])
  · rintro ⟨hi, hiv, hall⟩
    refine ⟨by rw [List.mem_reverse, List.mem_filter]; simp [hi, hiv],
      fun j hj => ?_⟩
    rw [List.mem_reverse, List.mem_filter, decide_eq_true_eq] at hj
    exact hall j hj.1 hj.2

theorem find_Prev_iff {s : State} (hs : TreeSorted s) (v : Int) (i : Nat) :
    find s v .Prev = some i ↔
      i ∈ s.tree ∧ verOf s i < v ∧
        ∀ j ∈ s.tree, verOf s j < v → verOf s j ≤ verOf s i := by
  rw [find_Prev_eq,
    head?_desc_max (verOf s) _ (filter_reverse_sorted hs _) i]
  constructor
  · rintro ⟨hi, hall⟩
    rw [List.mem_reverse, List.mem_filter, decide_eq_true_eq] at hi
    refine ⟨hi.1, hi.2, fun j hj hjv => ?_⟩
    exact hall j (by rw [List.mem_reverse, List.mem_filter]; simp [hj, hjv])
  · rintro ⟨hi, hiv, hall⟩
    refine ⟨by rw [List.mem_reverse, List.mem_filter]; simp [hi, hiv],
      fun j hj => ?_⟩
    rw [List.mem_reverse, List.mem_filter, decide_eq_true_eq] at hj
    exact hall j hj.1 hj.2

theorem find_Next_iff {s : State} (hs : TreeSorted s) (v : Int) (i : Nat) :
    find s v .Next = some i ↔
      i ∈ s.tree ∧ v < verOf s i ∧
        ∀ j ∈ s.tree, v < verOf s j → verOf s i ≤ verOf s j := by
  rw [find_Next_eq, head?_asc_min (verOf s) _ (filter_sorted hs _) i]
  constructor
  · rintro ⟨hi, hall⟩
    rw [List.mem_filter, decide_eq_true_eq] at hi
    refine ⟨hi.1, hi.2, fun j hj hjv => ?_⟩
    exact hall j (by rw [List.mem_filter]; simp [hj, hjv])
  · rintro ⟨hi, hiv, hall⟩
    refine ⟨by rw [List.mem_filter]; simp [hi, hiv], fun j hj => ?_⟩
    rw [List.mem_filter, decide_eq_true_eq] at hj
    exact hall j hj.1 hj.2

theorem find_Exact_iff {s : State} (hs : TreeSorted s) (v : Int) (i : Nat) :
    find s v .Exact = some i ↔ i ∈ s.tree ∧ verOf s i = v := by
  rw [find_Exact_eq, head?_asc_min (verOf s) _ (filter_sorted hs _) i]
  constructor
  · rintro ⟨hi, -⟩
    rw [List.mem_filter, decide_eq_true_eq] at hi
    exact hi
  · rintro ⟨hi, hiv⟩
    refine ⟨by rw [List.mem_filter]; simp [hi, hiv], fun j hj => ?_⟩
    rw [List.mem_filter, decide_eq_true_eq] at hj
    omega

/-! ### Empty-result characterizations -/

theorem find_Upto_none_iff (s : State) (v : Int) :
    find s v .Upto = none ↔ ∀ j ∈ s.tree, ¬verOf s j ≤ v := by
  rw [find_Upto_eq, List.head?_eq_none_iff, List.reverse_eq_nil_iff,
    List.filter_eq_nil_iff]
  simp

theorem find_Prev_none_iff (s : State) (v : Int) :
    find s v .Prev = none ↔ ∀ j ∈ s.tree, ¬verOf s j < v := by
  rw [find_Prev_eq, List.head?_eq_none_iff, List.reverse_eq_nil_iff,
    List.filter_eq_nil_iff]
  simp

theorem find_Next_none_iff (s : State) (v : Int) :
    find s v .Next = none ↔ ∀ j ∈ s.tree, ¬v < verOf s j := by
  rw [find_Next_eq, List.head?_eq_none_iff, List.filter_eq_nil_iff]
  simp

theorem find_Exact_none_iff (s : State) (v : Int) :
    find s v .Exact = none ↔ ∀ j ∈ s.tree, verOf s j ≠ v := by
  rw [find_Exact_eq, List.head?_eq_none_iff, List.filter_eq_nil_iff]
  simp

/-! ### Heap extension lemmas -/

theorem getItemH_append {heap : List ItemObj} {id : Nat}
    (h : id < heap.length) (x : ItemObj) :
    getItemH (heap ++ [x]) id = getItemH heap id := by
  unfold getItemH
  rw [List.getD_eq_getElem?_getD, List.getD_eq_getElem?_getD,
    List.getElem?_append_left h]

theorem verOfH_append {heap : List ItemObj} {id : Nat}
    (h : id < heap.length) (x : ItemObj) :
    verOfH (heap ++ [x]) id = verOfH heap id := by
  unfold verOfH
  rw [getItemH_append h]

theorem getItemH_new (heap : List ItemObj) (x : ItemObj) :
    getItemH (heap ++ [x]) heap.length = x := by
  unfold getItemH
  rw [List.getD_eq_getElem?_getD, List.getElem?_append_right (le_refl _)]
  simp

theorem verOfH_new (heap : List ItemObj) (x : ItemObj) :
    verOfH (heap ++ [x]) heap.length = x.ver := by
  unfold verOfH
  rw [getItemH_new]

/-! ### `ReplaceOrInsert` on a sorted tree -/

theorem replaceOrInsert_spec (heap : List ItemObj) (v : Int) (id : Nat)
    (hid : verOfH heap id = v) :
    ∀ tree : List Nat,
      tree.Pairwise (fun a b => verOfH heap a < verOfH heap b) →
      (replaceOrInsert heap v id tree).Pairwise
          (fun a b => verOfH heap a < verOfH heap b)
        ∧ (∀ j, j ∈ replaceOrInsert heap v id tree ↔
            j = id ∨ (j ∈ tree ∧ verOfH heap j ≠ v))
        ∧ ((∃ t ∈ tree, verOfH heap t = v) →
            (replaceOrInsert heap v id tree).length = tree.length)
        ∧ (¬(∃ t ∈ tree, verOfH heap t = v) →
            (replaceOrInsert heap v id tree).length = tree.length + 1) := by
  intro tree
  induction tree with
  | nil =>
    intro _
    refine ⟨List.pairwise_singleton _ _, ?_, by simp [replaceOrInsert],
      by simp [replaceOrInsert]⟩
    intro j
    simp [replaceOrInsert]
  | cons t ts ih =>
    intro hp
    rw [List.pairwise_cons] at hp
    rcases lt_trichotomy v (verOfH heap t) with hv | hv | hv
    · have hstep : replaceOrInsert heap v id (t :: ts) = id :: t :: ts := by
        simp only [replaceOrInsert]
        rw [if_pos hv]
      rw [hstep]
      refine ⟨?_, ?_, ?_, ?_⟩
      · rw [List.pairwise_cons]
        refine ⟨?_, List.pairwise_cons.mpr hp⟩
        intro b hb
        rcases List.mem_cons.mp hb with hbt | hbts
        · subst hbt; omega
        · have := hp.1 b hbts; omega
      · intro j
        constructor
        · intro hj
          rcases List.mem_cons.mp hj with hjid | hj2
          · exact Or.inl hjid
          · refine Or.inr ⟨hj2, ?_⟩
            rcases List.mem_cons.mp hj2 with hjt | hjts
            · subst hjt; omega
            · have := hp.1 j hjts; omega
        · rintro (hjid | ⟨hj2, -⟩)
          · exact hjid ▸ List.mem_cons_self _ _
          · exact List.mem_cons_of_mem _ hj2
      · rintro ⟨x, hx, hxv⟩
        exfalso
        rcases List.mem_cons.mp hx with hxt | hxts
        · subst hxt; omega
        · have := hp.1 x hxts; omega
      · intro _
        simp
    · have hstep : replaceOrInsert heap v id (t :: ts) = id :: ts := by
        simp only [replaceOrInsert]
        rw [if_neg (by omega), if_neg (by omega)]
      rw [hstep]
      refine ⟨?_, ?_, ?_, ?_⟩
      · rw [List.pairwise_cons]
        refine ⟨fun b hb => ?_, hp.2⟩
        have := hp.1 b hb
        omega
      · intro j
        constructor
        · intro hj
          rcases List.mem_cons.mp hj with hjid | hjts
          · exact Or.inl hjid
          · refine Or.inr ⟨List.mem_cons_of_mem _ hjts, ?_⟩
            have := hp.1 j hjts
            omega
        · rintro (hjid | ⟨hj2, hjv⟩)
          · exact hjid ▸ List.mem_cons_self _ _
          · rcases List.mem_cons.mp hj2 with hjt | hjts
            · exact absurd (hjt ▸ hv.symm) hjv
            · exact List.mem_cons_of_mem _ hjts
      · intro _
        simp
      · intro hno
        exact absurd ⟨t, List.mem_cons_self _ _, hv.symm⟩ hno
    · have hstep : replaceOrInsert heap v id (t :: ts)
          = t :: replaceOrInsert heap v id ts := by
        simp only [replaceOrInsert]
        rw [if_neg (by omega), if_pos hv]
      obtain ⟨ihp, ihmem, ihlen1, ihlen2⟩ := ih hp.2
      rw [hstep]
      refine ⟨?_, ?_, ?_, ?_⟩
      · rw [List.pairwise_cons]
        refine ⟨?_, ihp⟩
        intro b hb
        rcases (ihmem b).mp hb with hbid | ⟨hbts, -⟩
        · subst hbid; omega
        · exact hp.1 b hbts
      · intro j
        constructor
        · intro hj
          rcases List.mem_cons.mp hj with hjt | hjr
          · refine Or.inr ⟨hjt ▸ List.mem_cons_self _ _, ?_⟩
            subst hjt; omega
          · rcases (ihmem j).mp hjr with hjid | ⟨hjts, hjv⟩
            · exact Or.inl hjid
            · exact Or.inr ⟨List.mem_cons_of_mem _ hjts, hjv⟩
        · rintro (hjid | ⟨hj2, hjv⟩)
          · exact List.mem_cons_of_mem _ ((ihmem _).mpr (Or.inl hjid))
          · rcases List.mem_cons.mp hj2 with hjt | hjts
            · exact hjt ▸ List.mem_cons_self _ _
            · exact List.mem_cons_of_mem _
                ((ihmem j).mpr (Or.inr ⟨hjts, hjv⟩))
      · rintro ⟨x, hx, hxv⟩
        rcases List.mem_cons.mp hx with hxt | hxts
        · exact absurd (hxt ▸ hxv) (by omega)
        · have := ihlen1 ⟨x, hxts, hxv⟩
          simp [this]
      · intro hno
        have : ¬∃ t ∈ ts, verOfH heap t = v := by
          rintro ⟨x, hxts, hxv⟩
          exact hno ⟨x, List.mem_cons_of_mem _ hxts, hxv⟩
        have := ihlen2 this
        simp [this]

/-! ### `Put` specification and invariant preservation -/

theorem Put_spec (s : State) (h : Inv s) (v : Int) (b : List Nat) :
    Inv (Put s v b).1 ∧
    (Put s v b).2 = s.heap.length ∧
    getItem (Put s v b).1 (Put s v b).2 = ⟨v, b, true⟩ ∧
    (∀ j, j ∈ (Put s v b).1.tree ↔
        j = s.heap.length ∨ (j ∈ s.tree ∧ verOf s j ≠ v)) ∧
    (∀ j, j < s.heap.length → getItem (Put s v b).1 j = getItem s j) ∧
    ((∃ t ∈ s.tree, verOf s t = v) → Len (Put s v b).1 = Len s) ∧
    (¬(∃ t ∈ s.tree, verOf s t = v) → Len (Put s v b).1 = Len s + 1) := by
  have hid : verOfH (s.heap ++ [⟨v, b, true⟩]) s.heap.length = v :=
    verOfH_new s.heap ⟨v, b, true⟩
  have hp2 : s.tree.Pairwise
      (fun a c => verOfH (s.heap ++ [⟨v, b, true⟩]) a
        < verOfH (s.heap ++ [⟨v, b, true⟩]) c) := by
    refine h.2.imp_of_mem ?_
    intro a c ha hc hac
    rw [verOfH_append (h.1 a ha), verOfH_append (h.1 c hc)]
    exact hac
  obtain ⟨hsorted, hmem, hlen1, hlen2⟩ :=
    replaceOrInsert_spec (s.heap ++ [⟨v, b, true⟩]) v s.heap.length hid
      s.tree hp2
  have htree : (Put s v b).1.tree
      = replaceOrInsert (s.heap ++ [⟨v, b, true⟩]) v s.heap.length
          s.tree := rfl
  have hheap : (Put s v b).1.heap = s.heap ++ [⟨v, b, true⟩] := rfl
  have hmem2 : ∀ j, j ∈ (Put s v b).1.tree ↔
      j = s.heap.length ∨ (j ∈ s.tree ∧ verOf s j ≠ v) := by
    intro j
    rw [htree, hmem j]
    constructor
    · rintro (hj | ⟨hj, hjv⟩)
      · exact Or.inl hj
      · refine Or.inr ⟨hj, ?_⟩
        rwa [verOfH_append (h.1 j hj)] at hjv
    · rintro (hj | ⟨hj, hjv⟩)
      · exact Or.inl hj
      · refine Or.inr ⟨hj, ?_⟩
        rwa [verOfH_append (h.1 j hj)]
  have hex : (∃ t ∈ s.tree, verOfH (s.heap ++ [⟨v, b, true⟩]) t = v)
      ↔ (∃ t ∈ s.tree, verOf s t = v) := by
    constructor
    · rintro ⟨t, ht, htv⟩
      exact ⟨t, ht, by rwa [verOfH_append (h.1 t ht)] at htv⟩
    · rintro ⟨t, ht, htv⟩
      exact ⟨t, ht, by rwa [verOfH_append (h.1 t ht)]⟩
  refine ⟨⟨?_, ?_⟩, rfl, ?_, hmem2, ?_, ?_, ?_⟩
  · intro j hj
    rcases (hmem2 j).mp hj with hjid | ⟨hjtree, -⟩
    · rw [hheap, hjid, List.length_append]
      simp
    · rw [hheap, List.length_append]
      have := h.1 j hjtree
      simp only [List.length_cons, List.length_nil]
      omega
  · rw [htree]
    exact hsorted
  · show getItemH (Put s v b).1.heap (Put s v b).2 = ⟨v, b, true⟩
    rw [hheap]
    exact getItemH_new s.heap ⟨v, b, true⟩
  · intro j hj
    show getItemH (Put s v b).1.heap j = getItemH s.heap j
    rw [hheap]
    exact getItemH_append hj _
  · intro hexist
    show (Put s v b).1.tree.length = s.tree.length
    rw [htree]
    exact hlen1 (hex.mpr hexist)
  · intro hnone
    show (Put s v b).1.tree.length = s.tree.length + 1
    rw [htree]
    exact hlen2 (fun hc => hnone (hex.mp hc))

theorem Inv_New : Inv New := by
  constructor <;> simp [New, Inv]

theorem Inv_PutSeq :
    ∀ (ops : List (Int × List Nat)) (s : State), Inv s →
      Inv (PutSeq s ops) := by
  intro ops
  induction ops with
  | nil =>
    intro s hs
    exact hs
  | cons op rest ih =>
    intro s hs
    exact ih _ (Put_spec s hs op.1 op.2).1

/-! ### `deleteKey` on a sorted tree -/

theorem deleteKey_spec (heap : List ItemObj) (v : Int) :
    ∀ l : List Nat,
      l.Pairwise (fun a b => verOfH heap a < verOfH heap b) →
      (∀ j, j ∈ deleteKey heap v l ↔ j ∈ l ∧ verOfH heap j ≠ v) ∧
      (deleteKey heap v l).Pairwise
        (fun a b => verOfH heap a < verOfH heap b) := by
  intro l
  induction l with
  | nil =>
    intro _
    exact ⟨by simp [deleteKey], by simp [deleteKey]⟩
  | cons t ts ih =>
    intro hp
    rw [List.pairwise_cons] at hp
    by_cases hv : verOfH heap t = v
    · have hstep : deleteKey heap v (t :: ts) = ts := by
        simp only [deleteKey]
        rw [if_pos hv]
      rw [hstep]
      refine ⟨fun j => ?_, hp.2⟩
      constructor
      · intro hj
        exact ⟨List.mem_cons_of_mem _ hj, by have := hp.1 j hj; omega⟩
      · rintro ⟨hj, hjv⟩
        rcases List.mem_cons.mp hj with hjt | hjts
        · exact absurd (hjt ▸ hv) hjv
        · exact hjts
    · have hstep : deleteKey heap v (t :: ts)
          = t :: deleteKey heap v ts := by
        simp only [deleteKey]
        rw [if_neg hv]
      obtain ⟨ihmem, ihp⟩ := ih hp.2
      rw [hstep]
      constructor
      · intro j
        constructor
        · intro hj
          rcases List.mem_cons.mp hj with hjt | hjr
          · exact ⟨hjt ▸ List.mem_cons_self _ _, hjt ▸ hv⟩
          · obtain ⟨h1, h2⟩ := (ihmem j).mp hjr
            exact ⟨List.mem_cons_of_mem _ h1, h2⟩
        · rintro ⟨hj, hjv⟩
          rcases List.mem_cons.mp hj with hjt | hjts
          · exact hjt ▸ List.mem_cons_self _ _
          · exact List.mem_cons_of_mem _ ((ihmem j).mpr ⟨hjts, hjv⟩)
      · rw [List.pairwise_cons]
        refine ⟨fun c hc => ?_, ihp⟩
        exact hp.1 c ((ihmem c).mp hc).1

/-! ### Walk traversal lemmas -/

theorem walkGo_eq_take (s : State) (fn : ItemObj → Bool) :
    ∀ l : List Nat, ∃ n, walkGo s fn l = l.take n := by
  intro l
  induction l with
  | nil => exact ⟨0, rfl⟩
  | cons t ts ih =>
    by_cases hf : fn (getItem s t) = true
    · refine ⟨1, ?_⟩
      simp only [walkGo]
      rw [if_pos hf]
      rfl
    · obtain ⟨n, hn⟩ := ih
      refine ⟨n + 1, ?_⟩
      simp only [walkGo]
      rw [if_neg hf, hn]
      rfl

theorem walkGo_dropLast_false (s : State) (fn : ItemObj → Bool) :
    ∀ l : List Nat, ∀ id ∈ (walkGo s fn l).dropLast,
      fn (getItem s id) = false := by
  intro l
  induction l with
  | nil => simp [walkGo]
  | cons t ts ih =>
    by_cases hf : fn (getItem s t) = true
    · simp only [walkGo]
      rw [if_pos hf]
      simp
    · simp only [walkGo]
      rw [if_neg hf]
      intro id hid
      cases hw : walkGo s fn ts with
      | nil =>
        rw [hw] at hid
        simp at hid
      | cons w ws =>
        rw [hw, List.dropLast_cons₂] at hid
        rcases List.mem_cons.mp hid with hidt | hid2
        · subst hidt
          simpa using hf
        · exact ih id (by rw [hw]; exact hid2)

theorem walkGo_last_true (s : State) (fn : ItemObj → Bool) :
    ∀ l : List Nat, walkGo s fn l ≠ l →
      ∃ w x, walkGo s fn l = w ++ [x] ∧ fn (getItem s x) = true := by
  intro l
  induction l with
  | nil =>
    intro hne
    exact absurd rfl hne
  | cons t ts ih =>
    intro hne
    by_cases hf : fn (getItem s t) = true
    · refine ⟨[], t, ?_, hf⟩
      simp only [walkGo]
      rw [if_pos hf]
      rfl
    · have hstep : walkGo s fn (t :: ts) = t :: walkGo s fn ts := by
        simp only [walkGo]
        rw [if_neg hf]
      rw [hstep] at hne ⊢
      have hts : walkGo s fn ts ≠ ts := fun he => hne (by rw [he])
      obtain ⟨w, x, hwx, hx⟩ := ih hts
      exact ⟨t :: w, x, by rw [hwx]; rfl, hx⟩

theorem walkGo_const_false (s : State) :
    ∀ l : List Nat, walkGo s (fun _ => false) l = l := by
  intro l
  induction l with
  | nil => rfl
  | cons t ts ih =>
    simp only [walkGo]
    rw [if_neg (by simp), ih]

/-! ### Heap update lemmas -/

theorem getItemH_setDetached_self {heap : List ItemObj} {i : Nat}
    (h : i < heap.length) :
    getItemH (setDetached heap i) i
      = { getItemH heap i with attached := false } := by
  unfold setDetached getItemH
  rw [List.getD_eq_getElem?_getD, List.getElem?_set_self (by simpa using h)]
  rfl

theorem attached_lt_length {s : State} {i : Nat}
    (h : (getItem s i).attached = true) : i < s.heap.length := by
  by_contra hge
  push_neg at hge
  have hd : getItem s i = ⟨0, [], false⟩ := by
    show getItemH s.heap i = _
    unfold getItemH
    rw [List.getD_eq_getElem?_getD, List.getElem?_eq_none hge]
    rfl
  rw [hd] at h
  simp at h

/-! ### Claim theorems -/

/-- Claim C1: seek correctness of `find` as used by `Get`/`Del`/`Exp`.
On every well-formed container, `Exact` resolves to the entry whose
version equals `v` (none otherwise); `Prev` to the entry with the
greatest version strictly below `v`; `Next` to the entry with the
smallest version strictly above `v`; `Upto` to the entry with the
greatest version at most `v`; and each mode yields `none` exactly when
no such entry exists (ties excluded for `Prev`/`Next`, included for
`Upto`/`Exact`). -/
theorem find_seek_correct (s : State) (hs : Inv s) (v : Int) :
    (∀ m, Get s v m = find s v m) ∧
    (∀ i, find s v .Exact = some i ↔ i ∈ s.tree ∧ verOf s i = v) ∧
    (∀ i, find s v .Prev = some i ↔
        i ∈ s.tree ∧ verOf s i < v ∧
          ∀ j ∈ s.tree, verOf s j < v → verOf s j ≤ verOf s i) ∧
    (∀ i, find s v .Next = some i ↔
        i ∈ s.tree ∧ v < verOf s i ∧
          ∀ j ∈ s.tree, v < verOf s j → verOf s i ≤ verOf s j) ∧
    (∀ i, find s v .Upto = some i ↔
        i ∈ s.tree ∧ verOf s i ≤ v ∧
          ∀ j ∈ s.tree, verOf s j ≤ v → verOf s j ≤ verOf s i) ∧
    (find s v .Exact = none ↔ ∀ j ∈ s.tree, verOf s j ≠ v) ∧
    (find s v .Prev = none ↔ ∀ j ∈ s.tree, ¬verOf s j < v) ∧
    (find s v .Next = none ↔ ∀ j ∈ s.tree, ¬v < verOf s j) ∧
    (find s v .Upto = none ↔ ∀ j ∈ s.tree, ¬verOf s j ≤ v) :=
  ⟨fun _ => rfl, find_Exact_iff hs.2 v, find_Prev_iff hs.2 v,
    find_Next_iff hs.2 v, find_Upto_iff hs.2 v,
    find_Exact_none_iff s v, find_Prev_none_iff s v,
    find_Next_none_iff s v, find_Upto_none_iff s v⟩

/-- Witness for C1: on entries {10, 20, 30}, `find 15 Prev` resolves to
the entry at version 10 (id 0), by the theorem's `Prev`
characterization. -/
theorem find_seek_correct_witness : find ex3 15 .Prev = some 0 :=
  ((find_seek_correct ex3 (by decide) 15).2.2.1 0).mpr (by decide)

/-- Claim C3: `Nearest` is defined compositionally: it returns exactly
the `Upto` result when that is non-nil and exactly the `Next` result
otherwise, so it prefers the past neighbor whenever one exists. -/
theorem find_Nearest_compositional (s : State) (v : Int) :
    (find s v .Nearest
      = match find s v .Upto with
        | some i => some i
        | none => find s v .Next) ∧
    (∀ i, find s v .Upto = some i → find s v .Nearest = some i) ∧
    (find s v .Upto = none → find s v .Nearest = find s v .Next) := by
  refine ⟨rfl, ?_, ?_⟩
  · intro i h
    show (match find s v .Upto with
          | some i => some i
          | none => find s v .Next) = some i
    rw [h]
  · intro h
    show (match find s v .Upto with
          | some i => some i
          | none => find s v .Next) = find s v .Next
    rw [h]

/-- Witness for C3: on entries {10, 20, 30}, `Upto 25` resolves to the
entry at 20 (id 1), hence `Nearest 25` returns it. -/
theorem find_Nearest_compositional_witness : find ex3 25 .Nearest = some 1 :=
  (find_Nearest_compositional ex3 25).2.1 1 (by decide)

/-- Claim C4 counterexample: the claimed polarity (true = keep going,
stop on the first false) is inverted in the code.  On entries
{10, 20, 30}, a visitor that constantly returns true visits ONLY the
first entry (the claim would have it visit all three), and a visitor
that constantly returns false visits all three (the claim would have it
stop immediately after the first). -/
theorem walk_polarity_cex :
    Walk ex3 (fun _ => true) ≠ [0, 1, 2] ∧
    Walk ex3 (fun _ => true) = [0] ∧
    Walk ex3 (fun _ => false) = [0, 1, 2] := by
  refine ⟨by decide, by decide, by decide⟩

/-- Claim C4 (amended): `Walk` invokes the visitor on entries in
increasing version order starting from the minimum, and stops early the
first time the visitor returns TRUE; the traversal continues for as long
as the visitor returns FALSE (the polarity is the opposite of the one
claimed).  Formally: the visited ids are a prefix of the tree; every
visited entry except possibly the last one had the visitor return false;
if the traversal stopped early, the last visited entry had the visitor
return true; and on a well-formed container the visited versions are
strictly increasing. -/
theorem Walk_order_and_stop (s : State) (fn : ItemObj → Bool) :
    (∃ n, Walk s fn = s.tree.take n) ∧
    (∀ id ∈ (Walk s fn).dropLast, fn (getItem s id) = false) ∧
    (Walk s fn ≠ s.tree →
      ∃ w x, Walk s fn = w ++ [x] ∧ fn (getItem s x) = true) ∧
    (Inv s → ((Walk s fn).map (verOf s)).Pairwise (· < ·)) := by
  refine ⟨walkGo_eq_take s fn s.tree, walkGo_dropLast_false s fn s.tree,
    walkGo_last_true s fn s.tree, ?_⟩
  intro hs
  obtain ⟨n, hn⟩ := walkGo_eq_take s fn s.tree
  show ((walkGo s fn s.tree).map (verOf s)).Pairwise (· < ·)
  rw [hn, List.pairwise_map]
  exact hs.2.sublist (List.take_sublist n s.tree)

/-- Witness for C4's amended theorem: with a constantly-true visitor on
{10, 20, 30} the traversal stops early, and the theorem yields the entry
it stopped on with the visitor having returned true there. -/
theorem Walk_order_and_stop_witness :
    Walk ex3 (fun _ => true) ≠ ex3.tree ∧
    (∃ w x, Walk ex3 (fun _ => true) = w ++ [x] ∧
      (fun (_ : ItemObj) => true) (getItem ex3 x) = true) :=
  ⟨by decide, (Walk_order_and_stop ex3 (fun _ => true)).2.2.1 (by decide)⟩

/-- Claim C2: `Exp(version, mode)` range-expunge semantics.  If the seek
resolves no entry, `Exp` returns nil and changes nothing.  If it
resolves a target `t`, `Exp` returns `t` with its pre-removal value and
version intact, removes exactly the entries whose version is at most
`t`'s version (the survivors are precisely the entries of strictly
greater version), and a subsequent `Min()` returns the smallest
remaining entry, whose version is strictly greater than `t`'s; `Min()`
is nil only when every entry was at most `t`'s version. -/
theorem Exp_range_expunge (s : State) (hs : Inv s) (v : Int) (m : Find) :
    (find s v m = none → Exp s v m = (s, none)) ∧
    (∀ t, find s v m = some t →
      (Exp s v m).2 = some t ∧
      (Exp s v m).1.heap = s.heap ∧
      Item.Val (Exp s v m).1 t = Item.Val s t ∧
      Item.Ver (Exp s v m).1 t = Item.Ver s t ∧
      (∀ id, id ∈ (Exp s v m).1.tree ↔
        id ∈ s.tree ∧ verOf s t < verOf s id) ∧
      (∀ i, Min (Exp s v m).1 = some i →
        i ∈ s.tree ∧ verOf s t < verOf s i ∧
          ∀ j ∈ (Exp s v m).1.tree, verOf s i ≤ verOf s j) ∧
      (Min (Exp s v m).1 = none → ∀ j ∈ s.tree, verOf s j ≤ verOf s t)) := by
  constructor
  · intro h
    unfold Exp
    rw [h]
  · intro t h
    have hE : Exp s v m
        = (⟨s.heap, s.tree.filter (fun id => !(verOf s id ≤ verOf s t))⟩,
            some t) := by
      unfold Exp
      rw [h]
    have hmem : ∀ id, id ∈ (Exp s v m).1.tree ↔
        id ∈ s.tree ∧ verOf s t < verOf s id := by
      intro id
      rw [hE, List.mem_filter]
      constructor
      · rintro ⟨h1, h2⟩
        simp only [Bool.not_eq_true', decide_eq_false_iff_not] at h2
        exact ⟨h1, by omega⟩
      · rintro ⟨h1, h2⟩
        refine ⟨h1, ?_⟩
        simp only [Bool.not_eq_true', decide_eq_false_iff_not]
        omega
    refine ⟨by rw [hE], by rw [hE], by rw [hE]; rfl, by rw [hE]; rfl,
      hmem, ?_, ?_⟩
    · intro i hmin
      have hp : ((Exp s v m).1.tree).Pairwise
          (fun a c => verOf s a < verOf s c) := by
        rw [hE]
        exact filter_sorted hs.2 _
      have := (head?_asc_min (verOf s) _ hp i).mp hmin
      obtain ⟨hi, hall⟩ := this
      obtain ⟨hi1, hi2⟩ := (hmem i).mp hi
      exact ⟨hi1, hi2, hall⟩
    · intro hnone j hj
      rw [hE] at hnone
      simp only [Min] at hnone
      rw [List.head?_eq_none_iff, List.filter_eq_nil_iff] at hnone
      have := hnone j hj
      simp only [Bool.not_eq_true', decide_eq_false_iff_not, not_not]
        at this
      exact this

/-- Witness for C2: on entries {10, 20, 30}, `Exp(20, Upto)` returns the
entry at 20 (id 1), and the surviving entries are exactly those above
20; `Min()` afterwards resolves id 2 (version 30). -/
theorem Exp_range_expunge_witness :
    (Exp ex3 20 .Upto).2 = some 1 ∧
    ((2 : Nat) ∈ (Exp ex3 20 .Upto).1.tree ↔
      (2 : Nat) ∈ ex3.tree ∧ verOf ex3 1 < verOf ex3 2) ∧
    ((2 : Nat) ∈ ex3.tree ∧ verOf ex3 1 < verOf ex3 2 ∧
        ∀ j ∈ (Exp ex3 20 .Upto).1.tree, verOf ex3 2 ≤ verOf ex3 j) := by
  have h := (Exp_range_expunge ex3 (by decide) 20 .Upto).2 1 (by decide)
  exact ⟨h.1, h.2.2.2.2.1 2, h.2.2.2.2.2.1 2 (by decide)⟩

/-- Claim C5 counterexample: `Put` on an existing version does NOT keep
the same Entry in the container.  After `Put(5, [7])` returns entry id
0, `Put(5, [9])` allocates a fresh Item (id 1) and `ReplaceOrInsert`s
it: the container then holds only the fresh entry, and the original
entry id 0 is no longer in it — refuting "the same Entry (not a second
node) remains in the container". -/
theorem put_same_identity_cex :
    (Put New 5 [7]).2 = 0 ∧
    (Put (Put New 5 [7]).1 5 [9]).1.tree = [1] ∧
    (Put New 5 [7]).2 ∉ (Put (Put New 5 [7]).1 5 [9]).1.tree := by
  refine ⟨by decide, by decide, by decide⟩

/-- Claim C5 (amended): `Put(v, b)` on a container holding version `v`
replaces the stored entry with a FRESH entry (a new node, not the same
identity) whose value is `b`; the previously stored entry at `v` leaves
the tree.  The new payload is visible once the call returns
(`Get(v, Exact)` resolves the fresh entry, whose value is `b`) and the
returned entry has its owner set to this container. -/
theorem Put_replace_semantics (s : State) (hs : Inv s) (v : Int)
    (b : List Nat) :
    (Put s v b).2 = s.heap.length ∧
    getItem (Put s v b).1 (Put s v b).2 = ⟨v, b, true⟩ ∧
    (Put s v b).2 ∈ (Put s v b).1.tree ∧
    (∀ e ∈ s.tree, verOf s e = v → e ∉ (Put s v b).1.tree) ∧
    find (Put s v b).1 v .Exact = some (Put s v b).2 ∧
    Item.Val (Put s v b).1 (Put s v b).2 = b := by
  obtain ⟨hinv2, hid, hget, hmem, -, -, -⟩ := Put_spec s hs v b
  have hmemNew : (Put s v b).2 ∈ (Put s v b).1.tree := by
    rw [hid]
    exact (hmem _).mpr (Or.inl rfl)
  have hver : verOf (Put s v b).1 (Put s v b).2 = v := by
    show (getItemH (Put s v b).1.heap (Put s v b).2).ver = v
    rw [show getItemH (Put s v b).1.heap (Put s v b).2
        = getItem (Put s v b).1 (Put s v b).2 from rfl, hget]
  refine ⟨hid, hget, hmemNew, ?_, ?_, ?_⟩
  · intro e he hev hcontra
    rcases (hmem e).mp hcontra with heid | ⟨-, henv⟩
    · have := hs.1 e he
      omega
    · exact henv hev
  · exact (find_Exact_iff hinv2.2 v _).mpr ⟨hmemNew, hver⟩
  · rw [show Item.Val (Put s v b).1 (Put s v b).2
        = (getItem (Put s v b).1 (Put s v b).2).val from rfl, hget]

/-- Witness for C5's amended theorem: after `Put(5, [7])` then
`Put(5, [9])`, `Get(5, Exact)` resolves the fresh entry id 1. -/
theorem Put_replace_semantics_witness :
    find (Put (Put New 5 [7]).1 5 [9]).1 5 .Exact
      = some (Put (Put New 5 [7]).1 5 [9]).2 :=
  (Put_replace_semantics (Put New 5 [7]).1 (by decide) 5 [9]).2.2.2.2.1

/-- Claim C6: uniqueness under repeated `Put`.  After `Put(v, a)`
followed by `Put(v, b)`, `Get(v, Exact)` resolves a single entry whose
value is `b` (any tree entry with version `v` is that entry), and
`Len()` does not increase on the second `Put`. -/
theorem put_put_unique (s : State) (hs : Inv s) (v : Int)
    (a b : List Nat) :
    (∃ i, find (Put (Put s v a).1 v b).1 v .Exact = some i ∧
      Item.Val (Put (Put s v a).1 v b).1 i = b ∧
      ∀ j ∈ (Put (Put s v a).1 v b).1.tree,
        verOf (Put (Put s v a).1 v b).1 j
          = verOf (Put (Put s v a).1 v b).1 i → j = i) ∧
    Len (Put (Put s v a).1 v b).1 = Len (Put s v a).1 := by
  obtain ⟨hinv1, hid1, hget1, hmem1, -, -, -⟩ := Put_spec s hs v a
  obtain ⟨hinv2, hid2, hget2, hmem2, -, hlenEq, -⟩ :=
    Put_spec (Put s v a).1 hinv1 v b
  have hmemNew : (Put (Put s v a).1 v b).2
      ∈ (Put (Put s v a).1 v b).1.tree := by
    rw [hid2]
    exact (hmem2 _).mpr (Or.inl rfl)
  have hver : verOf (Put (Put s v a).1 v b).1 (Put (Put s v a).1 v b).2
      = v := by
    show (getItemH _ _).ver = v
    rw [show getItemH (Put (Put s v a).1 v b).1.heap
          (Put (Put s v a).1 v b).2
        = getItem (Put (Put s v a).1 v b).1 (Put (Put s v a).1 v b).2
        from rfl, hget2]
  constructor
  · refine ⟨(Put (Put s v a).1 v b).2, ?_, ?_, ?_⟩
    · exact (find_Exact_iff hinv2.2 v _).mpr ⟨hmemNew, hver⟩
    · rw [show Item.Val (Put (Put s v a).1 v b).1 (Put (Put s v a).1 v b).2
          = (getItem (Put (Put s v a).1 v b).1
              (Put (Put s v a).1 v b).2).val from rfl, hget2]
    · intro j hj hjv
      exact pairwise_key_inj _ _ hinv2.2 j hj _ hmemNew hjv
  · refine hlenEq ⟨(Put s v a).2, ?_, ?_⟩
    · rw [hid1]
      exact (hmem1 _).mpr (Or.inl rfl)
    · show (getItemH _ _).ver = v
      rw [show getItemH (Put s v a).1.heap (Put s v a).2
          = getItem (Put s v a).1 (Put s v a).2 from rfl, hget1]

/-- Witness for C6: starting from the empty container with v = 5,
a = [7], b = [9]: the second `Put` leaves `Len` unchanged. -/
theorem put_put_unique_witness :
    Len (Put (Put New 5 [7]).1 5 [9]).1 = Len (Put New 5 [7]).1 :=
  (put_put_unique New (by decide) 5 [7] [9]).2

/-- Claim C7: ordering invariant.  For every sequence of `Put` calls
applied to `New()` the container is well-formed, a full ascending `Walk`
(one whose visitor never stops the traversal) visits exactly the stored
entries, any `Walk` visits entries in strictly increasing version order,
and at most one entry per distinct version exists. -/
theorem putseq_walk_ascending (ops : List (Int × List Nat)) :
    Inv (PutSeq New ops) ∧
    Walk (PutSeq New ops) (fun _ => false) = (PutSeq New ops).tree ∧
    (∀ fn, ((Walk (PutSeq New ops) fn).map
        (verOf (PutSeq New ops))).Pairwise (· < ·)) ∧
    (∀ i ∈ (PutSeq New ops).tree, ∀ j ∈ (PutSeq New ops).tree,
      verOf (PutSeq New ops) i = verOf (PutSeq New ops) j → i = j) := by
  have hinv := Inv_PutSeq ops New Inv_New
  refine ⟨hinv, walkGo_const_false _ _, ?_, ?_⟩
  · intro fn
    obtain ⟨n, hn⟩ :=
      walkGo_eq_take (PutSeq New ops) fn (PutSeq New ops).tree
    show ((walkGo _ fn _).map _).Pairwise _
    rw [hn, List.pairwise_map]
    exact hinv.2.sublist (List.take_sublist n _)
  · exact pairwise_key_inj _ _ hinv.2

/-- Witness for C7: for the out-of-order insertion sequence
(20, then 10, then 20 again), the full walk visits the whole tree and
the entry of version 20 is unique. -/
theorem putseq_walk_ascending_witness :
    Walk (PutSeq New [(20, [2]), (10, [1]), (20, [9])]) (fun _ => false)
      = (PutSeq New [(20, [2]), (10, [1]), (20, [9])]).tree ∧
    (2 : Nat) = 2 :=
  ⟨(putseq_walk_ascending [(20, [2]), (10, [1]), (20, [9])]).2.1,
    (putseq_walk_ascending [(20, [2]), (10, [1]), (20, [9])]).2.2.2
      2 (by decide) 2 (by decide) rfl⟩

/-- Claim C8 counterexample: `Exp` does NOT clear the owner reference of
the entry it returns.  On entries {10, 20, 30}, `Exp(20, Upto)` returns
entry id 1 and that entry's `list` back-pointer is still set (attached =
true) after the call — refuting "the returned Entry's owner reference
has been cleared by the call". -/
theorem exp_detach_cex :
    (Exp ex3 20 .Upto).2 = some 1 ∧
    (getItem (Exp ex3 20 .Upto).1 1).attached = true := by
  refine ⟨by decide, by decide⟩

/-- Claim C8 (amended): whenever `Exp` returns a non-nil Entry, no owner
field is cleared at all — the heap is untouched, so the returned Entry
still references the container (it is NOT detached) — even though it has
been removed from the tree along with the rest of the expunged range. -/
theorem Exp_returns_attached (s : State) (v : Int) (m : Find) (t : Nat)
    (h : (Exp s v m).2 = some t) :
    (Exp s v m).1.heap = s.heap ∧
    getItem (Exp s v m).1 t = getItem s t ∧
    t ∉ (Exp s v m).1.tree := by
  cases hf : find s v m with
  | none =>
    unfold Exp at h
    rw [hf] at h
    exact absurd h (by simp)
  | some i =>
    have hE : Exp s v m
        = (⟨s.heap, s.tree.filter (fun id => !(verOf s id ≤ verOf s i))⟩,
            some i) := by
      unfold Exp
      rw [hf]
    rw [hE] at h
    have hit : i = t := by simpa using h
    subst hit
    refine ⟨by rw [hE], by rw [hE]; rfl, ?_⟩
    rw [hE]
    intro hmem
    rw [List.mem_filter] at hmem
    simp only [Bool.not_eq_true', decide_eq_false_iff_not] at hmem
    exact hmem.2 (le_refl _)

/-- Witness for C8's amended theorem: applied to `Exp(20, Upto)` on
{10, 20, 30} and its returned entry id 1. -/
theorem Exp_returns_attached_witness :
    (Exp ex3 20 .Upto).1.heap = ex3.heap ∧
    getItem (Exp ex3 20 .Upto).1 1 = getItem ex3 1 ∧
    1 ∉ (Exp ex3 20 .Upto).1.tree :=
  Exp_returns_attached ex3 20 .Upto 1 (by decide)

/-- Claim C9: operations on a detached Entry are no-ops or return
nothing: when the owner reference is absent, `Del()` leaves the state
unchanged and returns the same Entry, and `Prev()`/`Next()` return nil;
consequently calling `Del()` twice is always safe — the second call is a
no-op returning the same Entry. -/
theorem detached_item_ops (s : State) (i : Nat) :
    ((getItem s i).attached = false →
      Item.Del s i = (s, i) ∧ Item.Prev s i = none ∧
        Item.Next s i = none) ∧
    Item.Del (Item.Del s i).1 (Item.Del s i).2
      = ((Item.Del s i).1, (Item.Del s i).2) := by
  have hnoop : ∀ (u : State) (k : Nat), (getItem u k).attached = false →
      Item.Del u k = (u, k) ∧ Item.Prev u k = none ∧
        Item.Next u k = none := by
    intro u k h
    refine ⟨?_, ?_, ?_⟩
    · unfold Item.Del
      rw [if_neg (by simp [h])]
    · unfold Item.Prev
      rw [if_neg (by simp [h])]
    · unfold Item.Next
      rw [if_neg (by simp [h])]
  refine ⟨hnoop s i, ?_⟩
  by_cases h : (getItem s i).attached = true
  · have hlen := attached_lt_length h
    have h1 : Item.Del s i
        = (⟨setDetached s.heap i, deleteKey s.heap (verOf s i) s.tree⟩,
            i) := by
      unfold Item.Del
      rw [if_pos h]
    have h2 : (getItem (Item.Del s i).1 (Item.Del s i).2).attached
        = false := by
      rw [h1]
      show (getItemH (setDetached s.heap i) i).attached = false
      rw [getItemH_setDetached_self hlen]
    exact (hnoop _ _ h2).1
  · have hfalse : (getItem s i).attached = false := by
      revert h
      cases (getItem s i).attached <;> simp
    have h1 : Item.Del s i = (s, i) := (hnoop s i hfalse).1
    rw [h1]
    exact h1

/-- Witness for C9: after `Del(20, Exact)` on {10, 20, 30}, entry id 1
is detached and its `Prev()` returns nil by the theorem. -/
theorem detached_item_ops_witness :
    (getItem (Del ex3 20 .Exact).1 1).attached = false ∧
    Item.Prev (Del ex3 20 .Exact).1 1 = none :=
  ⟨by decide,
    ((detached_item_ops (Del ex3 20 .Exact).1 1).1 (by decide)).2.1⟩

/-- Claim C10 (implicit): a replaced entry stays attached and its
`Del()` removes the live entry at that version.  If `Put(v, a)` returns
entry `e1` and a later `Put(v, b)` returns `e2`, then `e1` is no longer
in the tree but still has its owner set and value `a`, and calling
`e1.Del()` returns `e1` while removing `e2` — the current entry at
version `v` — from the container, because deletion locates the tree node
by version key alone. -/
theorem put_replaced_item_del (s : State) (hs : Inv s) (v : Int)
    (a b : List Nat) :
    (Put s v a).2 ∉ (Put (Put s v a).1 v b).1.tree ∧
    (getItem (Put (Put s v a).1 v b).1 (Put s v a).2).attached = true ∧
    Item.Val (Put (Put s v a).1 v b).1 (Put s v a).2 = a ∧
    (Put (Put s v a).1 v b).2 ∈ (Put (Put s v a).1 v b).1.tree ∧
    (Item.Del (Put (Put s v a).1 v b).1 (Put s v a).2).2
      = (Put s v a).2 ∧
    (Put (Put s v a).1 v b).2
      ∉ (Item.Del (Put (Put s v a).1 v b).1 (Put s v a).2).1.tree := by
  obtain ⟨hinv1, hid1, hget1, hmem1, -, -, -⟩ := Put_spec s hs v a
  obtain ⟨hinv2, hid2, hget2, hmem2, hold2, -, -⟩ :=
    Put_spec (Put s v a).1 hinv1 v b
  have hlen1 : (Put s v a).1.heap.length = s.heap.length + 1 := by
    show (s.heap ++ [(⟨v, a, true⟩ : ItemObj)]).length = s.heap.length + 1
    simp
  have he1lt : (Put s v a).2 < (Put s v a).1.heap.length := by
    rw [hid1, hlen1]
    omega
  have hgetE1 : getItem (Put (Put s v a).1 v b).1 (Put s v a).2
      = ⟨v, a, true⟩ := by
    rw [hold2 _ he1lt, hget1]
  have hverE1 : verOf (Put (Put s v a).1 v b).1 (Put s v a).2 = v := by
    show (getItemH _ _).ver = v
    rw [show getItemH (Put (Put s v a).1 v b).1.heap (Put s v a).2
        = getItem (Put (Put s v a).1 v b).1 (Put s v a).2 from rfl,
      hgetE1]
  have hver1 : verOf (Put s v a).1 (Put s v a).2 = v := by
    show (getItemH _ _).ver = v
    rw [show getItemH (Put s v a).1.heap (Put s v a).2
        = getItem (Put s v a).1 (Put s v a).2 from rfl, hget1]
  have hmemNew : (Put (Put s v a).1 v b).2
      ∈ (Put (Put s v a).1 v b).1.tree := by
    rw [hid2]
    exact (hmem2 _).mpr (Or.inl rfl)
  have hverE2 : verOf (Put (Put s v a).1 v b).1 (Put (Put s v a).1 v b).2
      = v := by
    show (getItemH _ _).ver = v
    rw [show getItemH (Put (Put s v a).1 v b).1.heap
          (Put (Put s v a).1 v b).2
        = getItem (Put (Put s v a).1 v b).1 (Put (Put s v a).1 v b).2
        from rfl, hget2]
  have hatt : (getItem (Put (Put s v a).1 v b).1
      (Put s v a).2).attached = true := by
    rw [hgetE1]
  have hDel : Item.Del (Put (Put s v a).1 v b).1 (Put s v a).2
      = (⟨setDetached (Put (Put s v a).1 v b).1.heap (Put s v a).2,
          deleteKey (Put (Put s v a).1 v b).1.heap
            (verOf (Put (Put s v a).1 v b).1 (Put s v a).2)
            (Put (Put s v a).1 v b).1.tree⟩,
          (Put s v a).2) := by
    unfold Item.Del
    rw [if_pos hatt]
  obtain ⟨hdelmem, -⟩ :=
    deleteKey_spec (Put (Put s v a).1 v b).1.heap v
      (Put (Put s v a).1 v b).1.tree hinv2.2
  refine ⟨?_, hatt, ?_, hmemNew, by rw [hDel], ?_⟩
  · intro hc
    rcases (hmem2 _).mp hc with heid | ⟨-, hnv⟩
    · rw [hid1] at heid
      rw [hlen1] at heid
      omega
    · exact hnv hver1
  · rw [show Item.Val (Put (Put s v a).1 v b).1 (Put s v a).2
        = (getItem (Put (Put s v a).1 v b).1 (Put s v a).2).val from rfl,
      hgetE1]
  · rw [hDel]
    intro hc
    rw [hverE1] at hc
    obtain ⟨-, hne⟩ := (hdelmem _).mp hc
    exact hne hverE2

/-- Witness for C10: from the empty container with v = 5, a = [7],
b = [9]: deleting through the stale first entry removes the live second
entry from the tree. -/
theorem put_replaced_item_del_witness :
    (Put (Put New 5 [7]).1 5 [9]).2
      ∉ (Item.Del (Put (Put New 5 [7]).1 5 [9]).1
          (Put New 5 [7]).2).1.tree :=
  (put_replaced_item_del New (by decide) 5 [7] [9]).2.2.2.2.2

end Blist
